import Mathlib

/-!
Shallow embedding of `src/attach/attach.py` from the repository
`yatharth/attach`.

The Python code observes values only through references: it moves them
between dictionaries and compares them with `is`.  Object identities are
therefore modelled as natural numbers, and the `is` comparison becomes
equality of identities.  CPython dictionaries preserve insertion order,
so a scope (a `dict`) is modelled as an insertion-ordered association
list from identifier strings to identities.
-/

/-- Python dictionary with string keys, modelled as an insertion-ordered
association list; values are object identities. -/
abbrev Dict := List (String × Nat)

/-- Python `k in d`. -/
def containsKey (d : Dict) (k : String) : Bool :=
  match d with
  | [] => false
  | p :: rest => if p.1 = k then true else containsKey rest k

/-- Python `d[k]`, returning `none` when the key is absent (where the
source would raise `KeyError`). -/
def lookupKey (d : Dict) (k : String) : Option Nat :=
  match d with
  | [] => none
  | p :: rest => if p.1 = k then some p.2 else lookupKey rest k

/-- Python `d[k] = v`: an existing entry is updated in place, a fresh key
is appended at the end, exactly as CPython dictionaries behave. -/
def setKey (d : Dict) (k : String) (v : Nat) : Dict :=
  match d with
  | [] => [(k, v)]
  | p :: rest => if p.1 = k then (k, v) :: rest else p :: setKey rest k v

/-- Python `del d[k]`. -/
def delKey (d : Dict) (k : String) : Dict :=
  match d with
  | [] => []
  | p :: rest => if p.1 = k then rest else p :: delKey rest k

/-- Python `key.startswith('_')` as used by the source: true exactly when
the first character is an underscore. -/
def startsUnderscore (s : String) : Bool :=
  match s.toList with
  | [] => false
  | c :: _ => c == '_'

/-- Model of `DotDict.__getattr__` (attach.py lines 9-12): when the item
is not among the keys the source raises `KeyError(str(item))`, modelled
as `Except.error` carrying the item; otherwise it returns
`dict.get(self, item)`. -/
def dotGetattr (d : Dict) (k : String) : Except String (Option Nat) :=
  if containsKey d k then Except.ok (lookupKey d k) else Except.error k

/-- Model of `DotDict.__setattr__`, defined by the source as
`dict.__setitem__` (attach.py line 14). -/
def dotSetattr (d : Dict) (k : String) (v : Nat) : Dict :=
  setKey d k v

/-- Model of `DotDict.__delattr__`, defined by the source as
`dict.__delitem__` (attach.py line 15). -/
def dotDelattr (d : Dict) (k : String) : Dict :=
  delKey d k

/-- Result of `attach.__enter__`: the state of the caller global scope
when the call returns or raises, the backup snapshot `self.backup`, and
the key named by the `RuntimeError` (collision) when one was raised. -/
structure EnterResult where
  globals : Dict
  backup : Dict
  collision : Option String
deriving DecidableEq

/-- Loop of `attach.__enter__` (attach.py lines 62-69): iterate the
namespace entries in order; a key already present in the (evolving)
global scope raises the collision error, otherwise the entry is copied
into the global scope before the next entry is examined. -/
def enterLoop (ns : Dict) (g : Dict) : Dict × Option String :=
  match ns with
  | [] => (g, none)
  | p :: rest =>
    if containsKey g p.1 then (g, some p.1)
    else enterLoop rest (setKey g p.1 p.2)

/-- Model of `attach.__enter__` (attach.py lines 53-69): take the backup
copy of the caller globals, then run the injection loop. -/
def attachEnter (ns : Dict) (g : Dict) : EnterResult :=
  let backup := g
  let r := enterLoop ns g
  { globals := r.1, backup := backup, collision := r.2 }

/-- Outcome of `attach.__exit__`: either the method returns a boolean to
the `with` machinery (the source returns `False`), or it raises the
`RuntimeError` for a modified pre-existing global, chained via
`raise ... from exc_val` to the exception that triggered the exit. -/
inductive ExitOutcome where
  | returned (suppress : Bool)
  | raisedImmutableGlobal (key : String) (cause : Option Nat)
deriving DecidableEq

/-- Result of `attach.__exit__`: the namespace and the caller global
scope after the call, and its outcome. -/
structure ExitResult where
  ns : Dict
  globals : Dict
  outcome : ExitOutcome
deriving DecidableEq

/-- Reconciliation loop of `attach.__exit__` (attach.py lines 79-90):
iterate the keys of the global scope in order; a key absent from the
backup is copied into the namespace unless it is skipped as underscored,
and a key present in the backup whose current identity differs from the
backed-up identity stops the loop with the immutability error. -/
def exitLoop (backup : Dict) (skip : Bool) (g : Dict) (n : Dict) : Dict × Option String :=
  match g with
  | [] => (n, none)
  | p :: rest =>
    match lookupKey backup p.1 with
    | none =>
      if skip && startsUnderscore p.1 then exitLoop backup skip rest n
      else exitLoop backup skip rest (setKey n p.1 p.2)
    | some bv =>
      if p.2 ≠ bv then (n, some p.1)
      else exitLoop backup skip rest n

/-- Restoration step of `attach.__exit__` (attach.py lines 93-95):
`self.globals.clear()` followed by `self.globals.update(self.backup)`,
that is, every backup entry is written in order into the emptied scope. -/
def restoreGlobals (backup : Dict) : Dict :=
  backup.foldl (fun d p => setKey d p.1 p.2) []

/-- Model of `attach.__exit__` (attach.py lines 71-99).  Arguments: the
namespace, the global scope at exit time, the backup snapshot, the
`skip_underscored` flag and the exception value propagating out of the
block (`none` on a normal exit).  First the keys of the namespace that
are no longer global keys are deleted, then the reconciliation loop
runs, and the global scope is restored from the backup in a `finally`
block whether or not the loop raised; on a normal return the method
returns `False` so exceptions are never suppressed. -/
def attachExit (nsD : Dict) (g : Dict) (backup : Dict) (skip : Bool)
    (excVal : Option Nat) : ExitResult :=
  let ns1 := nsD.filter (fun p => containsKey g p.1)
  let r := exitLoop backup skip g ns1
  let gFinal := restoreGlobals backup
  match r.2 with
  | some k => { ns := r.1, globals := gFinal,
                outcome := ExitOutcome.raisedImmutableGlobal k excVal }
  | none => { ns := r.1, globals := gFinal, outcome := ExitOutcome.returned false }

/-- Statement form of the claim that `__exit__` never suppresses a
propagating exception: it either returns `False` (so the exception, when
there is one, keeps propagating) or raises its own immutability error
chained to exactly the propagating exception. -/
def neverSuppresses (r : ExitResult) (excVal : Option Nat) : Prop :=
  match r.outcome with
  | ExitOutcome.returned b => b = false
  | ExitOutcome.raisedImmutableGlobal _ c => c = excVal

/-!
Rendering of `Namespace.__repr__` (attach.py lines 29-42).  Python
strings are modelled as lists of characters; an entry of the namespace
is a key string together with the string `str(val)` that the `format`
call produces for its value.  The source calls `textwrap.shorten`, a
Python standard-library function; it is modelled from its documented
behaviour: whitespace is collapsed to single spaces, the collapsed text
is returned whole when it fits in the width, and otherwise words are
dropped from the end so that the kept words plus the placeholder fit.
-/

/-- Python string for the rendering model. -/
abbrev Chars := List Char

/-- Whitespace-separated words of a text, the accumulator holding the
(reversed) current word; models the `text.split()` step of
`textwrap.shorten`. -/
def wordsOf (text : Chars) (cur : Chars) : List Chars :=
  match text with
  | [] => if cur.isEmpty then [] else [cur.reverse]
  | c :: rest =>
    if c.isWhitespace then
      if cur.isEmpty then wordsOf rest [] else cur.reverse :: wordsOf rest []
    else wordsOf rest (c :: cur)

/-- Words joined by single spaces; models the `' '.join(...)` step of
`textwrap.shorten`. -/
def joinSp (ws : List Chars) : Chars :=
  match ws with
  | [] => []
  | [w] => w
  | w :: rest => w ++ ' ' :: joinSp rest

/-- Longest prefix of the words, joined by single spaces, whose length
still leaves room for the placeholder within the width. -/
def fitPre (width phLen : Nat) (cur : Chars) (ws : List Chars) : Chars :=
  match ws with
  | [] => cur
  | w :: rest =>
    let cand := if cur.isEmpty then w else cur ++ ' ' :: w
    if cand.length + phLen ≤ width then fitPre width phLen cand rest
    else cur

/-- Model of `textwrap.shorten text width placeholder` from its
documented behaviour (see the section comment above). -/
def shortenText (text : Chars) (width : Nat) (ph : Chars) : Chars :=
  let ws := wordsOf text []
  let collapsed := joinSp ws
  if collapsed.length ≤ width then collapsed
  else fitPre width ph.length [] ws ++ ph

/-- Constant `MAX_WIDTH` of `Namespace.__repr__`. -/
def NS_MAX_WIDTH : Nat := 80

/-- Constant `PREFIX` of `Namespace.__repr__`: four spaces. -/
def NS_INDENT : Chars := ("    ").toList

/-- Constant `SUFFIX` of `Namespace.__repr__`. -/
def NS_LINE_END : Chars := (",\n").toList

/-- Placeholder passed by `Namespace.__repr__` to `textwrap.shorten`. -/
def NS_PLACEHOLDER : Chars := ("...").toList

/-- Opening delimiter written by `Namespace.__repr__`. -/
def NS_HEADER : Chars := ("Namespace(\x7b\n").toList

/-- Closing delimiter written by `Namespace.__repr__`. -/
def NS_FOOTER : Chars := ("\x7d)").toList

/-- Text handed to `textwrap.shorten` for one entry:
`"\x7b\x7d: \x7b\x7d".format(key, val)`. -/
def entryText (p : Chars × Chars) : Chars :=
  p.1 ++ ':' :: ' ' :: p.2

/-- Body of the loop of `Namespace.__repr__`: the string appended to the
result for one entry. -/
def reprLine (p : Chars × Chars) : Chars :=
  NS_INDENT ++
    shortenText (entryText p)
      (NS_MAX_WIDTH - NS_INDENT.length - NS_LINE_END.length) NS_PLACEHOLDER ++
    NS_LINE_END

/-- Model of `Namespace.__repr__`: the header, one appended line per
entry of the mapping in order, then the footer. -/
def namespaceRepr (entries : List (Chars × Chars)) : Chars :=
  (entries.foldl (fun acc p => acc ++ reprLine p) NS_HEADER) ++ NS_FOOTER

/-! Basic lemmas about the dictionary operations. -/

theorem containsKey_eq_isSome (d : Dict) (k : String) :
    containsKey d k = (lookupKey d k).isSome := by
  induction d with
  | nil => rfl
  | cons p rest ih =>
    by_cases h : p.1 = k <;> simp [containsKey, lookupKey, h, ih]

theorem containsKey_false_iff {d : Dict} {k : String} :
    containsKey d k = false ↔ lookupKey d k = none := by
  rw [containsKey_eq_isSome]
  cases lookupKey d k <;> simp

theorem containsKey_true_iff {d : Dict} {k : String} :
    containsKey d k = true ↔ ∃ v, lookupKey d k = some v := by
  rw [containsKey_eq_isSome]
  cases lookupKey d k <;> simp

theorem lookupKey_mem {d : Dict} {k : String} {v : Nat}
    (h : lookupKey d k = some v) : (k, v) ∈ d := by
  induction d with
  | nil => simp [lookupKey] at h
  | cons p rest ih =>
    obtain ⟨pk, pv⟩ := p
    by_cases hk : pk = k
    · subst hk
      simp [lookupKey] at h
      subst h
      exact List.mem_cons_self _ _
    · simp [lookupKey, hk] at h
      exact List.mem_cons_of_mem _ (ih h)

theorem lookupKey_setKey_self (d : Dict) (k : String) (v : Nat) :
    lookupKey (setKey d k v) k = some v := by
  induction d with
  | nil => simp [setKey, lookupKey]
  | cons p rest ih =>
    by_cases h : p.1 = k <;> simp [setKey, lookupKey, h, ih]

theorem lookupKey_setKey_of_ne {k k' : String} (d : Dict) (v : Nat)
    (h : k' ≠ k) : lookupKey (setKey d k' v) k = lookupKey d k := by
  induction d with
  | nil => simp [setKey, lookupKey, h]
  | cons p rest ih =>
    by_cases hp : p.1 = k'
    · have hpk : p.1 ≠ k := by rw [hp]; exact h
      simp [setKey, lookupKey, hp, hpk, h]
    · by_cases hpk : p.1 = k <;>
        simp [setKey, lookupKey, hp, hpk, Ne.symm h, ih]

theorem containsKey_append (a b : Dict) (k : String) :
    containsKey (a ++ b) k = (containsKey a k || containsKey b k) := by
  induction a with
  | nil => simp [containsKey]
  | cons p rest ih =>
    by_cases h : p.1 = k <;> simp [containsKey, h, ih]

theorem lookupKey_append_left {a : Dict} {k : String} (b : Dict)
    (h : containsKey a k = true) : lookupKey (a ++ b) k = lookupKey a k := by
  induction a with
  | nil => simp [containsKey] at h
  | cons p rest ih =>
    by_cases hp : p.1 = k
    · simp [lookupKey, hp]
    · simp [containsKey, hp] at h
      simp [lookupKey, hp, ih h]

theorem setKey_of_not_contains {d : Dict} {k : String} (v : Nat)
    (h : containsKey d k = false) : setKey d k v = d ++ [(k, v)] := by
  induction d with
  | nil => simp [setKey]
  | cons p rest ih =>
    simp [containsKey] at h
    obtain ⟨h1, h2⟩ := h
    simp [setKey, h1, ih h2]

theorem lookupKey_filterKey (d : Dict) (P : String → Bool) (k : String) :
    lookupKey (d.filter (fun p => P p.1)) k =
      if P k then lookupKey d k else none := by
  induction d with
  | nil => simp [lookupKey]
  | cons p rest ih =>
    by_cases hk : p.1 = k
    · subst hk
      by_cases hP : P p.1 <;> simp [List.filter_cons, hP, lookupKey, ih]
    · by_cases hP : P p.1 <;> simp [List.filter_cons, hP, lookupKey, hk, ih]

theorem takeWhileKey_congr {p q : String × Nat → Bool} {l : Dict}
    (h : ∀ x ∈ l, p x = q x) : l.takeWhile p = l.takeWhile q := by
  induction l with
  | nil => rfl
  | cons x rest ih =>
    have hx := h x (List.mem_cons_self x rest)
    have hrest : ∀ y ∈ rest, p y = q y :=
      fun y hy => h y (List.mem_cons_of_mem _ hy)
    rw [List.takeWhile_cons, List.takeWhile_cons, hx, ih hrest]

theorem foldl_setKey_append (l : Dict) (acc : Dict)
    (hnd : (l.map Prod.fst).Nodup)
    (hdisj : ∀ k, containsKey acc k = true → k ∉ l.map Prod.fst) :
    l.foldl (fun d p => setKey d p.1 p.2) acc = acc ++ l := by
  induction l generalizing acc with
  | nil => simp
  | cons p rest ih =>
    obtain ⟨k, v⟩ := p
    have hacc : containsKey acc k = false := by
      cases hc : containsKey acc k
      · rfl
      · exact absurd (show k ∈ ((k, v) :: rest).map Prod.fst by simp)
          (hdisj k hc)
    have hstep : setKey acc k v = acc ++ [(k, v)] :=
      setKey_of_not_contains v hacc
    have hnd1 : (k :: rest.map Prod.fst).Nodup := by simpa using hnd
    have hnd' : (rest.map Prod.fst).Nodup := hnd1.of_cons
    have hknotin : k ∉ rest.map Prod.fst := (List.nodup_cons.mp hnd1).1
    have hdisj' : ∀ k', containsKey (acc ++ [(k, v)]) k' = true →
        k' ∉ rest.map Prod.fst := by
      intro k' hk' hmem
      rw [containsKey_append] at hk'
      have hk2 : containsKey acc k' = true ∨ k = k' := by
        rcases Bool.or_eq_true_iff.mp hk' with h1 | h2
        · exact Or.inl h1
        · right
          by_contra hne
          simp [containsKey, hne] at h2
      rcases hk2 with h1 | h2
      · exact hdisj k' h1 (List.mem_cons_of_mem _ hmem)
      · exact hknotin (h2 ▸ hmem)
    calc ((k, v) :: rest).foldl (fun d p => setKey d p.1 p.2) acc
        = rest.foldl (fun d p => setKey d p.1 p.2) (acc ++ [(k, v)]) := by
          simp [List.foldl_cons, hstep]
      _ = (acc ++ [(k, v)]) ++ rest := ih (acc ++ [(k, v)]) hnd' hdisj'
      _ = acc ++ ((k, v) :: rest) := by simp

theorem restoreGlobals_eq {backup : Dict}
    (hnd : (backup.map Prod.fst).Nodup) : restoreGlobals backup = backup := by
  have := foldl_setKey_append backup [] hnd (by intro k h; simp [containsKey] at h)
  simpa [restoreGlobals] using this

/-! Lemmas about the injection loop of `attach.__enter__`. -/

theorem enterLoop_no_collision (ns : Dict) (g : Dict)
    (hnc : ∀ p ∈ ns, containsKey g p.1 = false)
    (hnd : (ns.map Prod.fst).Nodup) :
    enterLoop ns g = (g ++ ns, none) := by
  induction ns generalizing g with
  | nil => simp [enterLoop]
  | cons p rest ih =>
    obtain ⟨k, v⟩ := p
    have hk : containsKey g k = false := hnc (k, v) (List.mem_cons_self _ _)
    have hstep : setKey g k v = g ++ [(k, v)] := setKey_of_not_contains v hk
    have hnd1 : (k :: rest.map Prod.fst).Nodup := by simpa using hnd
    have hknotin : k ∉ rest.map Prod.fst := (List.nodup_cons.mp hnd1).1
    have hnc' : ∀ q ∈ rest, containsKey (g ++ [(k, v)]) q.1 = false := by
      intro q hq
      rw [containsKey_append]
      have h1 : containsKey g q.1 = false := hnc q (List.mem_cons_of_mem _ hq)
      have hne : k ≠ q.1 := by
        intro he
        exact hknotin (by rw [he]; exact List.mem_map_of_mem Prod.fst hq)
      simp [containsKey, h1, hne]
    rw [enterLoop]
    simp only [hk, Bool.false_eq_true, if_false, hstep]
    rw [ih (g ++ [(k, v)]) hnc' (List.nodup_cons.mp hnd1).2]
    simp

theorem enterLoop_collision (ns : Dict) (g : Dict)
    (hnd : (ns.map Prod.fst).Nodup)
    (hc : ∃ p ∈ ns, containsKey g p.1 = true) :
    ∃ k, k ∈ ns.map Prod.fst ∧ containsKey g k = true ∧
      enterLoop ns g =
        (g ++ ns.takeWhile (fun p => !containsKey g p.1), some k) := by
  induction ns generalizing g with
  | nil => simp at hc
  | cons p rest ih =>
    obtain ⟨k, v⟩ := p
    by_cases hk : containsKey g k = true
    · refine ⟨k, by simp, hk, ?_⟩
      rw [List.takeWhile_cons]
      simp [enterLoop, hk]
    · have hkf : containsKey g k = false := by
        cases hck : containsKey g k
        · rfl
        · exact absurd hck hk
      have hstep : setKey g k v = g ++ [(k, v)] := setKey_of_not_contains v hkf
      have hnd1 : (k :: rest.map Prod.fst).Nodup := by simpa using hnd
      have hknotin : k ∉ rest.map Prod.fst := (List.nodup_cons.mp hnd1).1
      have htrans : ∀ q ∈ rest,
          containsKey (g ++ [(k, v)]) q.1 = containsKey g q.1 := by
        intro q hq
        rw [containsKey_append]
        have hne : k ≠ q.1 := by
          intro he
          exact hknotin (by rw [he]; exact List.mem_map_of_mem Prod.fst hq)
        simp [containsKey, hne]
      have hc' : ∃ q ∈ rest, containsKey (g ++ [(k, v)]) q.1 = true := by
        obtain ⟨q, hq, hqc⟩ := hc
        rcases List.mem_cons.mp hq with rfl | hqrest
        · exact absurd hqc hk
        · exact ⟨q, hqrest, by rw [htrans q hqrest]; exact hqc⟩
      obtain ⟨k', hk'mem, hk'c, hloop⟩ :=
        ih (g ++ [(k, v)]) (List.nodup_cons.mp hnd1).2 hc'
      have hk'g : containsKey g k' = true := by
        obtain ⟨q, hq, hqk⟩ := List.mem_map.mp hk'mem
        rw [← hqk, ← htrans q hq, hqk]
        exact hk'c
      refine ⟨k', by simp [hk'mem], hk'g, ?_⟩
      rw [enterLoop]
      simp only [hkf, Bool.false_eq_true, if_false, hstep]
      rw [hloop]
      have hpred : rest.takeWhile (fun q => !containsKey (g ++ [(k, v)]) q.1) =
          rest.takeWhile (fun q => !containsKey g q.1) :=
        takeWhileKey_congr (fun q hq => by rw [htrans q hq])
      rw [hpred, List.takeWhile_cons]
      simp [hkf]

/-! Lemmas about the reconciliation loop of `attach.__exit__`. -/

theorem exitLoop_raises (backup : Dict) (skip : Bool) (g : Dict) (n : Dict)
    (h : ∃ p ∈ g, ∃ bv, lookupKey backup p.1 = some bv ∧ p.2 ≠ bv) :
    ∃ k, (exitLoop backup skip g n).2 = some k := by
  induction g generalizing n with
  | nil => simp at h
  | cons p rest ih =>
    obtain ⟨k, v⟩ := p
    obtain ⟨q, hq, bv, hbv, hne⟩ := h
    rw [exitLoop]
    cases hbk : lookupKey backup k with
    | none =>
      have h' : ∃ p ∈ rest, ∃ bv, lookupKey backup p.1 = some bv ∧ p.2 ≠ bv := by
        rcases List.mem_cons.mp hq with rfl | hqrest
        · rw [hbk] at hbv; exact absurd hbv (by simp)
        · exact ⟨q, hqrest, bv, hbv, hne⟩
      by_cases hs : (skip && startsUnderscore k) = true <;>
        simp only [hs, if_true, if_false, Bool.false_eq_true] <;>
        exact ih _ h'
    | some bv0 =>
      by_cases hv : v = bv0
      · have h' : ∃ p ∈ rest, ∃ bv, lookupKey backup p.1 = some bv ∧ p.2 ≠ bv := by
          rcases List.mem_cons.mp hq with rfl | hqrest
          · rw [hbk] at hbv
            injection hbv with hbv
            exact absurd (hv.trans hbv) hne
          · exact ⟨q, hqrest, bv, hbv, hne⟩
        have hcond : ¬ v ≠ bv0 := by simp [hv]
        simp only [hcond, ite_false, if_neg]
        exact ih _ h'
      · refine ⟨k, ?_⟩
        simp [hv]

theorem exitLoop_completes (backup : Dict) (skip : Bool) (g : Dict) (n : Dict)
    (h : ∀ p ∈ g, ∀ bv, lookupKey backup p.1 = some bv → p.2 = bv) :
    (exitLoop backup skip g n).2 = none := by
  induction g generalizing n with
  | nil => simp [exitLoop]
  | cons p rest ih =>
    obtain ⟨k, v⟩ := p
    have h' : ∀ p ∈ rest, ∀ bv, lookupKey backup p.1 = some bv → p.2 = bv :=
      fun p hp => h p (List.mem_cons_of_mem _ hp)
    rw [exitLoop]
    cases hbk : lookupKey backup k with
    | none =>
      by_cases hs : (skip && startsUnderscore k) = true <;>
        simp only [hs, if_true, if_false, Bool.false_eq_true] <;>
        exact ih _ h'
    | some bv0 =>
      have hv : v = bv0 := h (k, v) (List.mem_cons_self _ _) bv0 hbk
      have hcond : ¬ v ≠ bv0 := by simp [hv]
      simp only [hcond, ite_false, if_neg]
      exact ih _ h'

theorem exitLoop_lookup_of_not_mem (backup : Dict) (skip : Bool) (g : Dict)
    (n : Dict) (k : String) (hk : containsKey g k = false) :
    lookupKey (exitLoop backup skip g n).1 k = lookupKey n k := by
  induction g generalizing n with
  | nil => simp [exitLoop]
  | cons p rest ih =>
    obtain ⟨k0, v0⟩ := p
    simp only [containsKey] at hk
    have hne : k0 ≠ k := by
      intro he
      simp [he] at hk
    have hrest : containsKey rest k = false := by
      simpa [hne] using hk
    rw [exitLoop]
    cases hbk : lookupKey backup k0 with
    | none =>
      by_cases hs : (skip && startsUnderscore k0) = true
      · simp only [hs, if_true]
        exact ih _ hrest
      · simp only [hs, Bool.false_eq_true, if_false]
        rw [ih _ hrest]
        exact lookupKey_setKey_of_ne n v0 hne
    | some bv0 =>
      by_cases hv : v0 = bv0
      · simp only [hv, ne_eq, not_true_eq_false]
        simp
        exact ih _ hrest
      · simp [hv]

theorem exitLoop_underscore_skip (backup : Dict) (g : Dict) (n : Dict)
    (k : String) (hu : startsUnderscore k = true) :
    lookupKey (exitLoop backup true g n).1 k = lookupKey n k := by
  induction g generalizing n with
  | nil => simp [exitLoop]
  | cons p rest ih =>
    obtain ⟨k0, v0⟩ := p
    rw [exitLoop]
    cases hbk : lookupKey backup k0 with
    | none =>
      by_cases hs : (true && startsUnderscore k0) = true
      · simp only [hs, if_true]
        exact ih _
      · simp only [hs, Bool.false_eq_true, if_false]
        rw [ih _]
        have hne : k0 ≠ k := by
          intro he
          rw [he, hu] at hs
          simp at hs
        exact lookupKey_setKey_of_ne n v0 hne
    | some bv0 =>
      by_cases hv : v0 = bv0
      · simp only [hv, ne_eq, not_true_eq_false]
        simp
        exact ih _
      · simp [hv]

theorem exitLoop_new_key (backup : Dict) (skip : Bool) (g : Dict) (n : Dict)
    (k : String) (v : Nat)
    (hnoviol : ∀ p ∈ g, ∀ bv, lookupKey backup p.1 = some bv → p.2 = bv)
    (hnd : (g.map Prod.fst).Nodup)
    (hg : lookupKey g k = some v) (hbk : lookupKey backup k = none)
    (hns : (skip && startsUnderscore k) = false) :
    lookupKey (exitLoop backup skip g n).1 k = some v := by
  induction g generalizing n with
  | nil => simp [lookupKey] at hg
  | cons p rest ih =>
    obtain ⟨k0, v0⟩ := p
    have hnd1 : (k0 :: rest.map Prod.fst).Nodup := by simpa using hnd
    rw [exitLoop]
    by_cases hk0 : k0 = k
    · subst hk0
      have hv0 : v0 = v := by
        simp [lookupKey] at hg
        exact hg
      subst hv0
      have hrest : containsKey rest k0 = false := by
        rw [containsKey_eq_isSome]
        cases hl : lookupKey rest k0
        · rfl
        · exact absurd (List.mem_map_of_mem Prod.fst (lookupKey_mem hl))
            (List.nodup_cons.mp hnd1).1
      rw [hbk]
      simp only [hns, Bool.false_eq_true, if_false]
      rw [exitLoop_lookup_of_not_mem backup skip rest _ k0 hrest]
      exact lookupKey_setKey_self n k0 v0
    · have hg' : lookupKey rest k = some v := by
        simpa [lookupKey, hk0] using hg
      have hnoviol' : ∀ p ∈ rest, ∀ bv, lookupKey backup p.1 = some bv → p.2 = bv :=
        fun p hp => hnoviol p (List.mem_cons_of_mem _ hp)
      have hnd' : (rest.map Prod.fst).Nodup := (List.nodup_cons.mp hnd1).2
      cases hbk0 : lookupKey backup k0 with
      | none =>
        by_cases hs : (skip && startsUnderscore k0) = true
        · simp only [hs, if_true]
          exact ih _ hnoviol' hnd' hg'
        · simp only [hs, Bool.false_eq_true, if_false]
          exact ih _ hnoviol' hnd' hg'
      | some bv0 =>
        have hv : v0 = bv0 :=
          hnoviol (k0, v0) (List.mem_cons_self _ _) bv0 hbk0
        have hcond : ¬ v0 ≠ bv0 := by simp [hv]
        simp only [hcond, ite_false, if_neg]
        exact ih _ hnoviol' hnd' hg'

theorem exitLoop_preserved_value (backup : Dict) (skip : Bool) (g : Dict)
    (n : Dict) (k : String) (v : Nat)
    (hnd : (g.map Prod.fst).Nodup)
    (hn : lookupKey n k = some v) (hg : lookupKey g k = some v) :
    lookupKey (exitLoop backup skip g n).1 k = some v := by
  induction g generalizing n with
  | nil => simp [lookupKey] at hg
  | cons p rest ih =>
    obtain ⟨k0, v0⟩ := p
    have hnd1 : (k0 :: rest.map Prod.fst).Nodup := by simpa using hnd
    have hnd' : (rest.map Prod.fst).Nodup := (List.nodup_cons.mp hnd1).2
    rw [exitLoop]
    by_cases hk0 : k0 = k
    · subst hk0
      have hv0 : v0 = v := by
        simp [lookupKey] at hg
        exact hg
      subst hv0
      have hrest : containsKey rest k0 = false := by
        rw [containsKey_eq_isSome]
        cases hl : lookupKey rest k0
        · rfl
        · exact absurd (List.mem_map_of_mem Prod.fst (lookupKey_mem hl))
            (List.nodup_cons.mp hnd1).1
      cases hbk0 : lookupKey backup k0 with
      | none =>
        by_cases hs : (skip && startsUnderscore k0) = true
        · simp only [hs, if_true]
          rw [exitLoop_lookup_of_not_mem backup skip rest _ k0 hrest]
          exact hn
        · simp only [hs, Bool.false_eq_true, if_false]
          rw [exitLoop_lookup_of_not_mem backup skip rest _ k0 hrest]
          exact lookupKey_setKey_self n k0 v0
      | some bv0 =>
        by_cases hv : v0 = bv0
        · have hcond : ¬ v0 ≠ bv0 := by simp [hv]
          simp only [hcond, ite_false, if_neg]
          rw [exitLoop_lookup_of_not_mem backup skip rest _ k0 hrest]
          exact hn
        · simp only [if_pos hv]
          simpa using hn
    · have hg' : lookupKey rest k = some v := by
        simpa [lookupKey, hk0] using hg
      cases hbk0 : lookupKey backup k0 with
      | none =>
        by_cases hs : (skip && startsUnderscore k0) = true
        · simp only [hs, if_true]
          exact ih _ hnd' hn hg'
        · simp only [hs, Bool.false_eq_true, if_false]
          have hn' : lookupKey (setKey n k0 v0) k = some v := by
            rw [lookupKey_setKey_of_ne n v0 hk0]
            exact hn
          exact ih _ hnd' hn' hg'
      | some bv0 =>
        by_cases hv : v0 = bv0
        · have hcond : ¬ v0 ≠ bv0 := by simp [hv]
          simp only [hcond, ite_false, if_neg]
          exact ih _ hnd' hn hg'
        · simp only [if_pos hv]
          simpa using hn

/-! Lemmas about the rendering of `Namespace.__repr__`. -/

theorem foldl_reprLine_eq (l : List (Chars × Chars)) (acc : Chars) :
    l.foldl (fun a p => a ++ reprLine p) acc =
      acc ++ (l.map reprLine).flatten := by
  induction l generalizing acc with
  | nil => simp
  | cons p rest ih =>
    simp [List.foldl_cons, ih, List.append_assoc]

theorem namespaceRepr_eq (entries : List (Chars × Chars)) :
    namespaceRepr entries =
      NS_HEADER ++ (entries.map reprLine).flatten ++ NS_FOOTER := by
  rw [namespaceRepr, foldl_reprLine_eq]

theorem wordsOf_no_ws (text : Chars) (cur : Chars)
    (hcur : ∀ c ∈ cur, c.isWhitespace = false) :
    ∀ w ∈ wordsOf text cur, ∀ c ∈ w, c.isWhitespace = false := by
  induction text generalizing cur with
  | nil =>
    intro w hw
    rw [wordsOf] at hw
    by_cases he : cur.isEmpty
    · simp [he] at hw
    · simp [he] at hw
      subst hw
      intro c hc
      exact hcur c (List.mem_reverse.mp hc)
  | cons ch rest ih =>
    intro w hw
    rw [wordsOf] at hw
    by_cases hws : ch.isWhitespace
    · by_cases he : cur.isEmpty
      · simp [hws, he] at hw
        exact ih [] (by intro c hc; simp at hc) w hw
      · simp [hws, he] at hw
        rcases hw with hw | hw
        · subst hw
          intro c hc
          exact hcur c (List.mem_reverse.mp hc)
        · exact ih [] (by intro c hc; simp at hc) w hw
    · simp [hws] at hw
      have hcur' : ∀ c ∈ ch :: cur, c.isWhitespace = false := by
        intro c hc
        rcases List.mem_cons.mp hc with rfl | hc
        · exact Bool.eq_false_iff.mpr hws
        · exact hcur c hc
      exact ih (ch :: cur) hcur' w hw

theorem joinSp_cons_cons (w w1 : Chars) (rest : List Chars) :
    joinSp (w :: w1 :: rest) = w ++ ' ' :: joinSp (w1 :: rest) := rfl

theorem mem_joinSp {ws : List Chars} {c : Char} (h : c ∈ joinSp ws) :
    c = ' ' ∨ ∃ w ∈ ws, c ∈ w := by
  induction ws with
  | nil => simp [joinSp] at h
  | cons w rest ih =>
    cases rest with
    | nil =>
      rw [joinSp] at h
      exact Or.inr ⟨w, by simp, h⟩
    | cons w1 rest1 =>
      rw [joinSp_cons_cons] at h
      rcases List.mem_append.mp h with h | h
      · exact Or.inr ⟨w, by simp, h⟩
      · rcases List.mem_cons.mp h with rfl | h
        · exact Or.inl rfl
        · rcases ih h with h | ⟨w2, hw2, hc⟩
          · exact Or.inl h
          · exact Or.inr ⟨w2, List.mem_cons_of_mem _ hw2, hc⟩

theorem mem_fitPre {width phLen : Nat} {cur : Chars} {ws : List Chars}
    {c : Char} (h : c ∈ fitPre width phLen cur ws) :
    c ∈ cur ∨ c = ' ' ∨ ∃ w ∈ ws, c ∈ w := by
  induction ws generalizing cur with
  | nil =>
    rw [fitPre] at h
    exact Or.inl h
  | cons w rest ih =>
    rw [fitPre] at h
    by_cases hfit :
        ((if cur.isEmpty then w else cur ++ ' ' :: w).length + phLen ≤ width)
    · rw [if_pos hfit] at h
      rcases ih h with hc | hc | ⟨w1, hw1, hc⟩
      · by_cases he : cur.isEmpty
        · rw [if_pos he] at hc
          exact Or.inr (Or.inr ⟨w, by simp, hc⟩)
        · rw [if_neg he] at hc
          rcases List.mem_append.mp hc with hc | hc
          · exact Or.inl hc
          · rcases List.mem_cons.mp hc with rfl | hc
            · exact Or.inr (Or.inl rfl)
            · exact Or.inr (Or.inr ⟨w, by simp, hc⟩)
      · exact Or.inr (Or.inl hc)
      · exact Or.inr (Or.inr ⟨w1, List.mem_cons_of_mem _ hw1, hc⟩)
    · rw [if_neg hfit] at h
      exact Or.inl h

theorem fitPre_length {width phLen : Nat} {cur : Chars} {ws : List Chars}
    (h : cur.length + phLen ≤ width) :
    (fitPre width phLen cur ws).length + phLen ≤ width := by
  induction ws generalizing cur with
  | nil => rw [fitPre]; exact h
  | cons w rest ih =>
    rw [fitPre]
    by_cases hfit :
        ((if cur.isEmpty then w else cur ++ ' ' :: w).length + phLen ≤ width)
    · rw [if_pos hfit]
      exact ih hfit
    · rw [if_neg hfit]
      exact h

theorem newline_not_mem_shortenText (text : Chars) (width : Nat) :
    ('\n') ∉ shortenText text width NS_PLACEHOLDER := by
  intro hmem
  rw [shortenText] at hmem
  by_cases hfit : (joinSp (wordsOf text [])).length ≤ width
  · rw [if_pos hfit] at hmem
    rcases mem_joinSp hmem with h | ⟨w, hw, hc⟩
    · exact absurd h (by decide)
    · have := wordsOf_no_ws text [] (by intro c hc; simp at hc) w hw ('\n') hc
      simp at this
  · rw [if_neg hfit] at hmem
    rcases List.mem_append.mp hmem with h | h
    · rcases mem_fitPre h with hc | hc | ⟨w, hw, hc⟩
      · simp at hc
      · exact absurd hc (by decide)
      · have := wordsOf_no_ws text [] (by intro c hc; simp at hc) w hw ('\n') hc
        simp at this
    · revert h
      decide

theorem shortenText_length (text : Chars) (width : Nat)
    (hph : NS_PLACEHOLDER.length ≤ width) :
    (shortenText text width NS_PLACEHOLDER).length ≤ width := by
  rw [shortenText]
  by_cases hfit : (joinSp (wordsOf text [])).length ≤ width
  · rw [if_pos hfit]
    exact hfit
  · rw [if_neg hfit]
    rw [List.length_append]
    exact fitPre_length (by simpa using hph)

/-! Projection lemmas for `attachExit`. -/

theorem attachExit_ns (nsD g backup : Dict) (skip : Bool) (excVal : Option Nat) :
    (attachExit nsD g backup skip excVal).ns =
      (exitLoop backup skip g (nsD.filter (fun p => containsKey g p.1))).1 := by
  simp only [attachExit]
  cases (exitLoop backup skip g (nsD.filter (fun p => containsKey g p.1))).2 <;> rfl

theorem attachExit_globals (nsD g backup : Dict) (skip : Bool)
    (excVal : Option Nat) :
    (attachExit nsD g backup skip excVal).globals = restoreGlobals backup := by
  simp only [attachExit]
  cases (exitLoop backup skip g (nsD.filter (fun p => containsKey g p.1))).2 <;> rfl

theorem attachExit_outcome_raised (nsD g backup : Dict) (skip : Bool)
    (excVal : Option Nat) (k : String)
    (h : (exitLoop backup skip g (nsD.filter (fun p => containsKey g p.1))).2 =
      some k) :
    (attachExit nsD g backup skip excVal).outcome =
      ExitOutcome.raisedImmutableGlobal k excVal := by
  simp only [attachExit, h]

theorem attachExit_outcome_returned (nsD g backup : Dict) (skip : Bool)
    (excVal : Option Nat)
    (h : (exitLoop backup skip g (nsD.filter (fun p => containsKey g p.1))).2 =
      none) :
    (attachExit nsD g backup skip excVal).outcome = ExitOutcome.returned false := by
  simp only [attachExit, h]

/-- Claim C1 counterexample.  With namespace `[a: 1, b: 2]` and global
scope `[b: 0]`, `begin` does raise the collision error (on `b`), but the
global scope is not unchanged afterwards: the entry `a`, iterated before
the colliding key, has already been injected and is left behind, because
`__enter__` copies each entry into the globals before examining the next
one and performs no cleanup when it raises. -/
theorem c1_counterexample :
    (attachEnter [("a", 1), ("b", 2)] [("b", 0)]).collision = some "b" ∧
    (attachEnter [("a", 1), ("b", 2)] [("b", 0)]).globals ≠ [("b", 0)] := by
  decide

/-- Claim C1 (amended): if some key of the namespace `ns` is already a
key of the global scope `g` (and the namespace keys are distinct, as
Python dictionary keys are), `begin` raises the collision error on a key
that indeed collides with `g`, and every pre-existing binding of `g` is
unchanged; but the scope afterwards is `g` followed by the namespace
entries iterated before the first colliding one, so `g` as a whole is
unchanged only when the colliding key comes first in iteration order. -/
theorem c1_collision_partial_injection (ns g : Dict)
    (hnd : (ns.map Prod.fst).Nodup)
    (hcol : ∃ p ∈ ns, containsKey g p.1 = true) :
    (∃ k, (attachEnter ns g).collision = some k ∧ containsKey g k = true) ∧
    (attachEnter ns g).globals =
      g ++ ns.takeWhile (fun p => !containsKey g p.1) ∧
    ∀ k, containsKey g k = true →
      lookupKey (attachEnter ns g).globals k = lookupKey g k := by
  obtain ⟨k, hkmem, hkcol, hloop⟩ := enterLoop_collision ns g hnd hcol
  refine ⟨⟨k, ?_, hkcol⟩, ?_, ?_⟩
  · simp [attachEnter, hloop]
  · simp [attachEnter, hloop]
  · intro k' hk'
    simp only [attachEnter, hloop]
    exact lookupKey_append_left _ hk'

/-- Claim C1 witness for the amended theorem, at the concrete input of
the counterexample. -/
theorem c1_collision_partial_injection_witness :
    (∃ k, (attachEnter [("a", 1), ("b", 2)] [("b", 0)]).collision = some k ∧
      containsKey [("b", 0)] k = true) ∧
    (attachEnter [("a", 1), ("b", 2)] [("b", 0)]).globals =
      [("b", 0)] ++ [("a", 1), ("b", 2)].takeWhile
        (fun p => !containsKey [("b", 0)] p.1) ∧
    ∀ k, containsKey [("b", 0)] k = true →
      lookupKey (attachEnter [("a", 1), ("b", 2)] [("b", 0)]).globals k =
        lookupKey [("b", 0)] k :=
  c1_collision_partial_injection [("a", 1), ("b", 2)] [("b", 0)]
    (by decide) ⟨("b", 2), by decide, by decide⟩

/-- Claim C2: for a session whose `begin` succeeded, the backup snapshot
is exactly the pre-begin global scope, and whatever the block did to the
globals (any exit-time scope `gExit`), whatever namespace is reconciled,
whether or not an exception `excVal` is propagating, and whichever way
the reconciliation loop ends, `end` leaves the global scope equal to the
pre-begin scope: key set and every binding's identity are restored. -/
theorem c2_restoration (ns g : Dict) (skip : Bool) (excVal : Option Nat)
    (hnd : (g.map Prod.fst).Nodup)
    (hok : (attachEnter ns g).collision = none) :
    (attachEnter ns g).backup = g ∧
    ∀ nsX gExit,
      (attachExit nsX gExit (attachEnter ns g).backup skip excVal).globals = g := by
  refine ⟨rfl, fun nsX gExit => ?_⟩
  rw [attachExit_globals]
  exact restoreGlobals_eq hnd

/-- Claim C2 witness: a concrete successful session in which the block
added a key and `end` restores the original scope. -/
theorem c2_restoration_witness :
    (attachEnter [("x", 1)] [("a", 5)]).backup = [("a", 5)] ∧
    ∀ nsX gExit,
      (attachExit nsX gExit (attachEnter [("x", 1)] [("a", 5)]).backup
        true none).globals = [("a", 5)] :=
  c2_restoration [("x", 1)] [("a", 5)] true none (by decide) (by decide)

/-- Claim C3: if a key present in the backup is bound in the exit-time
global scope to a value whose identity differs from the backed-up one,
`end` raises the immutability error, chained to exactly the exception
value that triggered the exit, and the global scope is nonetheless fully
restored to the backup before the error surfaces. -/
theorem c3_immutable_global (nsD gExit backup : Dict) (skip : Bool)
    (excVal : Option Nat) (k : String) (bv gv : Nat)
    (hback : (backup.map Prod.fst).Nodup)
    (hbk : lookupKey backup k = some bv)
    (hgk : lookupKey gExit k = some gv)
    (hne : gv ≠ bv) :
    (∃ k', (attachExit nsD gExit backup skip excVal).outcome =
      ExitOutcome.raisedImmutableGlobal k' excVal) ∧
    (attachExit nsD gExit backup skip excVal).globals = backup := by
  have hviol : ∃ p ∈ gExit, ∃ b, lookupKey backup p.1 = some b ∧ p.2 ≠ b :=
    ⟨(k, gv), lookupKey_mem hgk, bv, hbk, hne⟩
  obtain ⟨k', hk'⟩ := exitLoop_raises backup skip gExit
    (nsD.filter (fun p => containsKey gExit p.1)) hviol
  refine ⟨⟨k', attachExit_outcome_raised nsD gExit backup skip excVal k' hk'⟩, ?_⟩
  rw [attachExit_globals]
  exact restoreGlobals_eq hback

/-- Claim C3 witness: a pre-existing global `foo` rebound from identity
99 to identity 77 inside the block, with an exception propagating. -/
theorem c3_immutable_global_witness :
    (∃ k', (attachExit [("bar", 1)] [("foo", 77), ("bar", 1)] [("foo", 99)]
      true (some 5)).outcome = ExitOutcome.raisedImmutableGlobal k' (some 5)) ∧
    (attachExit [("bar", 1)] [("foo", 77), ("bar", 1)] [("foo", 99)]
      true (some 5)).globals = [("foo", 99)] :=
  c3_immutable_global [("bar", 1)] [("foo", 77), ("bar", 1)] [("foo", 99)]
    true (some 5) "foo" 99 77 (by decide) (by decide) (by decide) (by decide)

/-- Claim C4 counterexample.  The backup holds the pre-existing key `a`,
the block deleted `a` from the global scope (so at session-end `a` is
not bound to its begin-time value), yet `end` completes normally with no
immutability error and silently restores the scope: the reconciliation
loop only iterates the keys still present in the globals, so a deleted
pre-existing key is never examined. -/
theorem c4_counterexample :
    containsKey [("a", 1)] "a" = true ∧
    containsKey ([] : Dict) "a" = false ∧
    (attachExit [] [] [("a", 1)] true none).outcome =
      ExitOutcome.returned false ∧
    (attachExit [] [] [("a", 1)] true none).globals = [("a", 1)] := by
  decide

/-- Claim C4 (amended): a pre-existing key still present in the global
scope at session-end with a different value identity makes `end` fail
with the immutability error; but a pre-existing key deleted from the
global scope during the block is not detected: when every still-present
backed-up key kept its identity, `end` returns normally even if backed-up
keys have disappeared, and the deleted keys are silently restored. -/
theorem c4_amended (nsD gExit backup : Dict) (skip : Bool)
    (excVal : Option Nat) :
    ((∃ k bv gv, lookupKey backup k = some bv ∧ lookupKey gExit k = some gv ∧
        gv ≠ bv) →
      ∃ k', (attachExit nsD gExit backup skip excVal).outcome =
        ExitOutcome.raisedImmutableGlobal k' excVal) ∧
    ((∀ p ∈ gExit, ∀ bv, lookupKey backup p.1 = some bv → p.2 = bv) →
      (attachExit nsD gExit backup skip excVal).outcome =
        ExitOutcome.returned false) := by
  constructor
  · rintro ⟨k, bv, gv, hbk, hgk, hne⟩
    obtain ⟨k', hk'⟩ := exitLoop_raises backup skip gExit
      (nsD.filter (fun p => containsKey gExit p.1))
      ⟨(k, gv), lookupKey_mem hgk, bv, hbk, hne⟩
    exact ⟨k', attachExit_outcome_raised nsD gExit backup skip excVal k' hk'⟩
  · intro hnoviol
    exact attachExit_outcome_returned nsD gExit backup skip excVal
      (exitLoop_completes backup skip gExit _ hnoviol)

/-- Claim C4 witness for the amended theorem: the raise branch at a
rebound key, and the no-error branch at a scope from which the only
backed-up key was deleted. -/
theorem c4_amended_witness :
    (∃ k', (attachExit [] [("a", 2)] [("a", 1)] true none).outcome =
      ExitOutcome.raisedImmutableGlobal k' none) ∧
    (attachExit [] [] [("a", 1)] true none).outcome =
      ExitOutcome.returned false :=
  ⟨(c4_amended [] [("a", 2)] [("a", 1)] true none).1
      ⟨"a", 1, 2, by decide, by decide, by decide⟩,
    (c4_amended [] [] [("a", 1)] true none).2
      (by intro p hp; simp at hp)⟩

/-- Claim C5 counterexample.  At session-end the key `b` is present in
the global scope, absent from the backup and not underscored, so the
claim says its value is written into the namespace; but the pre-existing
key `a` was rebound (identity 1 became 2) and is iterated first, the
reconciliation loop raises there, and `b` is never persisted. -/
theorem c5_counterexample :
    containsKey [("a", 2), ("b", 5)] "b" = true ∧
    containsKey [("a", 1)] "b" = false ∧
    startsUnderscore "b" = false ∧
    (attachExit [] [("a", 2), ("b", 5)] [("a", 1)] true none).outcome =
      ExitOutcome.raisedImmutableGlobal "a" none ∧
    containsKey (attachExit [] [("a", 2), ("b", 5)] [("a", 1)] true none).ns "b" =
      false := by
  decide

/-- Claim C5 (amended): provided no backed-up key still present in the
exit-time global scope changed identity (so `end` does not fail with the
immutability error; when it does fail, only keys iterated before the
violating one are persisted), every key `k` of the exit-time global
scope that is not in the backup is reconciled as the claim states:
`end` returns normally; when `skip_underscored` holds and `k` is
underscored, `k` is not persisted (a key not already in the namespace
stays absent); otherwise the namespace afterwards binds `k` to its
current global value, as a new or updated entry. -/
theorem c5_amended (nsD gExit backup : Dict) (skip : Bool)
    (excVal : Option Nat) (k : String)
    (hnoviol : ∀ p ∈ gExit, ∀ bv, lookupKey backup p.1 = some bv → p.2 = bv)
    (hgnd : (gExit.map Prod.fst).Nodup)
    (hkg : containsKey gExit k = true)
    (hkb : containsKey backup k = false) :
    (attachExit nsD gExit backup skip excVal).outcome =
      ExitOutcome.returned false ∧
    ((skip && startsUnderscore k) = true → containsKey nsD k = false →
      containsKey (attachExit nsD gExit backup skip excVal).ns k = false) ∧
    ((skip && startsUnderscore k) = false →
      lookupKey (attachExit nsD gExit backup skip excVal).ns k =
        lookupKey gExit k) := by
  have hbk : lookupKey backup k = none := containsKey_false_iff.mp hkb
  refine ⟨attachExit_outcome_returned nsD gExit backup skip excVal
    (exitLoop_completes backup skip gExit _ hnoviol), ?_, ?_⟩
  · intro hs hnsk
    obtain ⟨hskip, hu⟩ : skip = true ∧ startsUnderscore k = true := by
      simpa using hs
    subst hskip
    rw [attachExit_ns, containsKey_eq_isSome,
      exitLoop_underscore_skip backup gExit _ k hu, lookupKey_filterKey]
    rw [containsKey_false_iff.mp hnsk]
    simp
  · intro hs
    obtain ⟨gv, hgv⟩ := containsKey_true_iff.mp hkg
    rw [attachExit_ns, hgv]
    exact exitLoop_new_key backup skip gExit _ k gv hnoviol hgnd hgv hbk hs

/-- Claim C5 witness for the amended theorem: inside the block the new
key `biz` and the new underscored key `_b` were set; with the default
flag `biz` is persisted with its current value and `_b` is not. -/
theorem c5_amended_witness :
    (attachExit [] [("biz", 4), ("_b", 7)] [] true none).outcome =
      ExitOutcome.returned false ∧
    containsKey (attachExit [] [("biz", 4), ("_b", 7)] [] true none).ns "_b" =
      false ∧
    lookupKey (attachExit [] [("biz", 4), ("_b", 7)] [] true none).ns "biz" =
      lookupKey [("biz", 4), ("_b", 7)] "biz" := by
  have hnoviol : ∀ p ∈ ([("biz", 4), ("_b", 7)] : Dict), ∀ bv,
      lookupKey [] p.1 = some bv → p.2 = bv := by
    intro p hp bv hbv
    simp [lookupKey] at hbv
  refine ⟨(c5_amended [] [("biz", 4), ("_b", 7)] [] true none "biz" hnoviol
      (by decide) (by decide) (by decide)).1, ?_, ?_⟩
  · exact (c5_amended [] [("biz", 4), ("_b", 7)] [] true none "_b" hnoviol
      (by decide) (by decide) (by decide)).2.1 (by decide) (by decide)
  · exact (c5_amended [] [("biz", 4), ("_b", 7)] [] true none "biz" hnoviol
      (by decide) (by decide) (by decide)).2.2 (by decide)

/-- Claim C6: a key that is in the namespace but no longer a key of the
exit-time global scope is deleted from the namespace by `end`; and a
namespace key still bound in the global scope to the same value identity
(untouched by the block) is left alone, keeping its value. -/
theorem c6_deletion_reconciliation (nsD gExit backup : Dict) (skip : Bool)
    (excVal : Option Nat) (k : String)
    (hgnd : (gExit.map Prod.fst).Nodup) :
    (containsKey nsD k = true → containsKey gExit k = false →
      containsKey (attachExit nsD gExit backup skip excVal).ns k = false) ∧
    (∀ v, lookupKey nsD k = some v → lookupKey gExit k = some v →
      lookupKey (attachExit nsD gExit backup skip excVal).ns k = some v) := by
  constructor
  · intro _ hgone
    rw [attachExit_ns, containsKey_eq_isSome,
      exitLoop_lookup_of_not_mem backup skip gExit _ k hgone,
      lookupKey_filterKey]
    simp [hgone]
  · intro v hns hg
    have hkg : containsKey gExit k = true :=
      containsKey_true_iff.mpr ⟨v, hg⟩
    have hn1 : lookupKey (nsD.filter (fun p => containsKey gExit p.1)) k =
        some v := by
      rw [lookupKey_filterKey]
      simp [hkg, hns]
    rw [attachExit_ns]
    exact exitLoop_preserved_value backup skip gExit _ k v hgnd hn1 hg

/-- Claim C6 witness: `baz` was deleted from the globals inside the
block and is dropped from the namespace, while `bar`, untouched, keeps
its binding. -/
theorem c6_deletion_reconciliation_witness :
    (containsKey [("bar", 1), ("baz", 2)] "baz" = true →
      containsKey [("foo", 9), ("bar", 1)] "baz" = false →
      containsKey (attachExit [("bar", 1), ("baz", 2)] [("foo", 9), ("bar", 1)]
        [("foo", 9)] true none).ns "baz" = false) ∧
    (∀ v, lookupKey [("bar", 1), ("baz", 2)] "baz" = some v →
      lookupKey [("foo", 9), ("bar", 1)] "baz" = some v →
      lookupKey (attachExit [("bar", 1), ("baz", 2)] [("foo", 9), ("bar", 1)]
        [("foo", 9)] true none).ns "baz" = some v) :=
  c6_deletion_reconciliation [("bar", 1), ("baz", 2)] [("foo", 9), ("bar", 1)]
    [("foo", 9)] true none "baz" (by decide)

/-- Claim C7: `end` never suppresses a propagating exception.  For every
input, `__exit__` either returns `False`, so the exception (if any)
keeps propagating unchanged, or raises its own immutability error
chained to exactly the exception value that triggered the exit; it never
returns `True` and never converts a propagating exception into normal
completion. -/
theorem c7_no_suppression (nsD gExit backup : Dict) (skip : Bool)
    (excVal : Option Nat) :
    neverSuppresses (attachExit nsD gExit backup skip excVal) excVal := by
  cases hx : (exitLoop backup skip gExit
      (nsD.filter (fun p => containsKey gExit p.1))).2 with
  | none =>
    have h := attachExit_outcome_returned nsD gExit backup skip excVal hx
    unfold neverSuppresses
    rw [h]
  | some k =>
    have h := attachExit_outcome_raised nsD gExit backup skip excVal k hx
    unfold neverSuppresses
    rw [h]

theorem containsKey_delKey {d : Dict} {k : String}
    (hnd : (d.map Prod.fst).Nodup) : containsKey (delKey d k) k = false := by
  induction d with
  | nil => rfl
  | cons p rest ih =>
    obtain ⟨pk, pv⟩ := p
    have hnd1 : (pk :: rest.map Prod.fst).Nodup := by simpa using hnd
    by_cases hp : pk = k
    · subst hp
      have hrest : containsKey rest pk = false := by
        rw [containsKey_eq_isSome]
        cases hl : lookupKey rest pk
        · rfl
        · exact absurd (List.mem_map_of_mem Prod.fst (lookupKey_mem hl))
            (List.nodup_cons.mp hnd1).1
      simpa [delKey] using hrest
    · rw [delKey]
      simp only [if_neg hp]
      rw [containsKey]
      simp only [if_neg hp]
      exact ih (List.nodup_cons.mp hnd1).2

/-- Claim C8: on the attribute-accessible mapping (with distinct keys,
as Python dictionaries have), attribute read of a key returns the mapped
value when the key is present and fails with the key-not-found error
when it is absent; attribute write makes the key bound to the written
value and attribute delete makes the key cease to be one; and attribute
write and delete are exactly the item write and delete of the source
(`__setattr__ = dict.__setitem__`, `__delattr__ = dict.__delitem__`). -/
theorem c8_dotdict (d : Dict) (k : String) (v : Nat)
    (hnd : (d.map Prod.fst).Nodup) :
    (∀ w, lookupKey d k = some w → dotGetattr d k = Except.ok (some w)) ∧
    (lookupKey d k = none → dotGetattr d k = Except.error k) ∧
    dotSetattr d k v = setKey d k v ∧
    lookupKey (dotSetattr d k v) k = some v ∧
    dotDelattr d k = delKey d k ∧
    containsKey (dotDelattr d k) k = false := by
  refine ⟨?_, ?_, rfl, lookupKey_setKey_self d k v, rfl, containsKey_delKey hnd⟩
  · intro w hw
    have hc : containsKey d k = true := containsKey_true_iff.mpr ⟨w, hw⟩
    simp [dotGetattr, hc, hw]
  · intro hw
    have hc : containsKey d k = false := containsKey_false_iff.mpr hw
    simp [dotGetattr, hc]

/-- Claim C8 witness: concrete reads, a failing read, and a delete. -/
theorem c8_dotdict_witness :
    dotGetattr [("a", 1)] "a" = Except.ok (some 1) ∧
    dotGetattr [("a", 1)] "b" = Except.error "b" ∧
    containsKey (dotDelattr [("a", 1)] "a") "a" = false := by
  refine ⟨(c8_dotdict [("a", 1)] "a" 0 (by decide)).1 1 (by decide), ?_, ?_⟩
  · exact (c8_dotdict [("a", 1)] "b" 0 (by decide)).2.1 (by decide)
  · exact (c8_dotdict [("a", 1)] "a" 0 (by decide)).2.2.2.2.2

/-- Claim C9 (implicit): for a session with `skip_underscored` true
whose namespace binds an underscore-prefixed key at begin, if the block
rebinds that key in the global scope without deleting it, the namespace
after `end` still binds the key to its begin-time value: deletion
reconciliation keeps the key because it is still a global key, and the
addition loop classifies it as a new binding (it was not in the backup)
and skips it as underscored, silently discarding the rebinding. -/
theorem c9_underscored_retained (nsD gExit backup : Dict)
    (excVal : Option Nat) (k : String) (v : Nat)
    (hu : startsUnderscore k = true)
    (hns : lookupKey nsD k = some v)
    (hkg : containsKey gExit k = true) :
    lookupKey (attachExit nsD gExit backup true excVal).ns k = some v := by
  rw [attachExit_ns, exitLoop_underscore_skip backup gExit _ k hu,
    lookupKey_filterKey]
  simp [hkg, hns]

/-- Claim C9 witness: the namespace binds `_x` to identity 1, the block
rebinds the global `_x` to identity 2, and after `end` the namespace
still binds `_x` to 1. -/
theorem c9_underscored_retained_witness :
    lookupKey (attachExit [("_x", 1)] [("_x", 2)] [] true none).ns "_x" =
      some 1 :=
  c9_underscored_retained [("_x", 1)] [("_x", 2)] [] none "_x" 1
    (by decide) (by decide) (by decide)

theorem count_newline_reprLine (p : Chars × Chars) :
    List.count '\n' (reprLine p) = 1 := by
  rw [reprLine, List.count_append, List.count_append]
  have h1 : List.count '\n' NS_INDENT = 0 := by decide
  have h2 : List.count '\n' (shortenText (entryText p)
      (NS_MAX_WIDTH - NS_INDENT.length - NS_LINE_END.length) NS_PLACEHOLDER) = 0 :=
    List.count_eq_zero.mpr (newline_not_mem_shortenText _ _)
  have h3 : List.count '\n' NS_LINE_END = 1 := by decide
  rw [h1, h2, h3]

theorem reprLine_length (p : Chars × Chars) :
    (reprLine p).length ≤ NS_MAX_WIDTH := by
  have h : (shortenText (entryText p)
      (NS_MAX_WIDTH - NS_INDENT.length - NS_LINE_END.length)
      NS_PLACEHOLDER).length ≤
      NS_MAX_WIDTH - NS_INDENT.length - NS_LINE_END.length :=
    shortenText_length _ _ (by decide)
  rw [reprLine, List.length_append, List.length_append]
  have h4 : NS_INDENT.length = 4 := by decide
  have h2' : NS_LINE_END.length = 2 := by decide
  have hW : NS_MAX_WIDTH = 80 := rfl
  omega

theorem reprLine_truncation (p : Chars × Chars) :
    ((joinSp (wordsOf (entryText p) [])).length ≤
        NS_MAX_WIDTH - NS_INDENT.length - NS_LINE_END.length →
      reprLine p =
        NS_INDENT ++ joinSp (wordsOf (entryText p) []) ++ NS_LINE_END) ∧
    (NS_MAX_WIDTH - NS_INDENT.length - NS_LINE_END.length <
        (joinSp (wordsOf (entryText p) [])).length →
      ∃ pre, reprLine p = NS_INDENT ++ (pre ++ NS_PLACEHOLDER) ++ NS_LINE_END ∧
        (pre ++ NS_PLACEHOLDER).length ≤
          NS_MAX_WIDTH - NS_INDENT.length - NS_LINE_END.length) := by
  constructor
  · intro hfit
    simp only [reprLine, shortenText]
    rw [if_pos hfit]
  · intro hover
    refine ⟨fitPre (NS_MAX_WIDTH - NS_INDENT.length - NS_LINE_END.length)
      NS_PLACEHOLDER.length [] (wordsOf (entryText p) []), ?_, ?_⟩
    · simp only [reprLine, shortenText]
      rw [if_neg (Nat.not_le.mpr hover)]
    · rw [List.length_append]
      exact fitPre_length (by decide)

theorem sum_map_one {α : Type} (l : List α) (f : α → Nat)
    (h : ∀ x ∈ l, f x = 1) : (l.map f).sum = l.length := by
  induction l with
  | nil => simp
  | cons x rest ih =>
    rw [List.map_cons, List.sum_cons, h x (List.mem_cons_self _ _),
      ih (fun y hy => h y (List.mem_cons_of_mem _ hy))]
    simp [List.length_cons]
    omega

/-- Claim C10: the rendering of a displayable namespace is the opening
delimiter, one appended line per entry of the mapping in order, and the
closing delimiter; the whole text contains exactly one newline per entry
plus the header newline, so there is exactly one line per entry; every
entry line stays within the `MAX_WIDTH` budget; and each line carries
the entry text `key: value` (its whitespace collapsed) whole when it
fits in the width left by the prefix and suffix, and otherwise a
truncation of it ending in the `...` placeholder that fits that width. -/
theorem c10_repr (entries : List (Chars × Chars)) :
    namespaceRepr entries =
      NS_HEADER ++ (entries.map reprLine).flatten ++ NS_FOOTER ∧
    List.count '\n' (namespaceRepr entries) = entries.length + 1 ∧
    ∀ p ∈ entries,
      (reprLine p).length ≤ NS_MAX_WIDTH ∧
      List.count '\n' (reprLine p) = 1 ∧
      ((joinSp (wordsOf (entryText p) [])).length ≤
          NS_MAX_WIDTH - NS_INDENT.length - NS_LINE_END.length →
        reprLine p =
          NS_INDENT ++ joinSp (wordsOf (entryText p) []) ++ NS_LINE_END) ∧
      (NS_MAX_WIDTH - NS_INDENT.length - NS_LINE_END.length <
          (joinSp (wordsOf (entryText p) [])).length →
        ∃ pre, reprLine p = NS_INDENT ++ (pre ++ NS_PLACEHOLDER) ++ NS_LINE_END ∧
          (pre ++ NS_PLACEHOLDER).length ≤
            NS_MAX_WIDTH - NS_INDENT.length - NS_LINE_END.length) := by
  refine ⟨namespaceRepr_eq entries, ?_, ?_⟩
  · have hflat : List.count '\n' ((entries.map reprLine).flatten) =
        entries.length := by
      rw [List.count_flatten, List.map_map]
      exact sum_map_one entries _ (fun p _ => count_newline_reprLine p)
    rw [namespaceRepr_eq, List.count_append, List.count_append, hflat]
    have hH : List.count '\n' NS_HEADER = 1 := by decide
    have hF : List.count '\n' NS_FOOTER = 0 := by decide
    rw [hH, hF]
    omega
  · intro p hp
    exact ⟨reprLine_length p, count_newline_reprLine p,
      (reprLine_truncation p).1, (reprLine_truncation p).2⟩

/-- Claim C10 witness: a one-entry namespace renders with exactly two
newlines, the header one and the single entry line one. -/
theorem c10_repr_witness :
    List.count '\n' (namespaceRepr [(['a'], ['b'])]) = 2 :=
  (c10_repr [(['a'], ['b'])]).2.1
